import Mathlib

/-!
Verification of the HTML message splitter (src/msg_split.py).

The fragmenter is embedded shallowly: strings are lists of characters
(Python `str` is a sequence of code points), the recursive generator
`traverse` becomes explicit state passing over a `St` record holding the
current fragment buffer, the open-block-tag stack and the fragments
emitted so far, and `raise SplitMessageError` becomes `Except.error`.
The HTML parse step (BeautifulSoup) is an external collaborator, so the
fragmenter takes the already-parsed node list as input; serialization of
atomic subtrees (`node.prettify` in the source, a library call) is
modelled from the spec as open tag + serialized children + close tag.
-/

namespace MsgSplit

/-- Python strings are sequences of code points; we model them as `List Char`. -/
abbrev Str := List Char

/-- Character data of a Lean string literal, used to write concrete inputs. -/
def strOf (s : String) : Str := s.data

/-- Characters for which Python `str.isspace()` holds, the set `str.strip()`
removes: 0x09-0x0d, 0x1c-0x1f, space, NEL (0x85), NBSP (0xa0), Ogham space
mark (0x1680), 0x2000-0x200a, line and paragraph separators (0x2028/0x2029),
0x202f, 0x205f and ideographic space (0x3000). -/
def pySpace (c : Char) : Bool :=
  (0x09 ≤ c.toNat && c.toNat ≤ 0x0d)
  || c = ' '
  || (0x1c ≤ c.toNat && c.toNat ≤ 0x1f)
  || c.toNat = 0x85 || c.toNat = 0xa0 || c.toNat = 0x1680
  || (0x2000 ≤ c.toNat && c.toNat ≤ 0x200a)
  || c.toNat = 0x2028 || c.toNat = 0x2029 || c.toNat = 0x202f
  || c.toNat = 0x205f || c.toNat = 0x3000

/-- `not text_str.strip()`: true iff every character is whitespace (or the string is empty). -/
def isAllSpace (s : Str) : Bool := s.all pySpace

/-- A BeautifulSoup attribute value: absent (boolean attribute), a plain string,
or a list of strings (multi-valued attribute such as `class`). -/
inductive AttrVal where
  | absent
  | str (v : Str)
  | vals (vs : List Str)

/-- A parse-tree node. `text` is a `NavigableString` holding `str(node)`: that
covers plain character data and also comments, doctypes and processing
instructions, which in the external parser are `NavigableString` subclasses
whose `str()` is their inner text (so `<!--abc-->` arrives as `text "abc"`).
`elem` is a `Tag` (name, ordered attributes, children). `other` is any node
that is neither, handled by the final `else: pass` branch of `traverse`;
the external parser produces no such node. -/
inductive Node where
  | text (s : Str)
  | elem (name : Str) (attrs : List (Str × AttrVal)) (children : List Node)
  | other

/-- The fixed set BLOCK_TAGS from the source. -/
def BLOCK_TAGS : List Str :=
  [strOf "p", strOf "b", strOf "strong", strOf "i", strOf "ul", strOf "ol",
   strOf "div", strOf "span"]

/-- `tag_name in BLOCK_TAGS`. -/
def isBlock (tag : Str) : Bool := BLOCK_TAGS.contains tag

/-- `node.name.lower()`. -/
def lowerName (s : Str) : Str := s.map Char.toLower

/-- Python `sep.join(parts)`. -/
def joinSep (sep : Str) : List Str → Str
  | [] => []
  | [x] => x
  | x :: y :: xs => x ++ sep ++ joinSep sep (y :: xs)

/-- One `parts.append(...)` entry of `format_attributes`. -/
def formatAttrPart : Str × AttrVal → Str
  | (k, AttrVal.absent) => k
  | (k, AttrVal.vals vs) => k ++ strOf "=\"" ++ joinSep (strOf " ") vs ++ strOf "\""
  | (k, AttrVal.str v) => k ++ strOf "=\"" ++ v ++ strOf "\""

/-- `format_attributes` from the source: empty for no attributes, otherwise a
leading space followed by the space-joined parts. -/
def format_attributes (attrs : List (Str × AttrVal)) : Str :=
  if attrs.isEmpty then [] else strOf " " ++ joinSep (strOf " ") (attrs.map formatAttrPart)

/-- `f"<{tag_name}{format_attributes(node)}>"`. -/
def openTagStr (tag : Str) (attrs : List (Str × AttrVal)) : Str :=
  strOf "<" ++ tag ++ format_attributes attrs ++ strOf ">"

/-- `f"</{tag_name}>"`. -/
def closeTagStr (tag : Str) : Str :=
  strOf "</" ++ tag ++ strOf ">"

/-- `open_block_tags` from the source: opening tags for the stack, in order. -/
def open_block_tags (stack : List Str) : Str :=
  (stack.map (fun t => strOf "<" ++ t ++ strOf ">")).flatten

/-- `close_block_tags` from the source: closing tags for the stack, in reverse order. -/
def close_block_tags (stack : List Str) : Str :=
  (stack.reverse.map (fun t => strOf "</" ++ t ++ strOf ">")).flatten

mutual

/-- Modelled from the spec: full serialization of a subtree (open tag,
recursively serialized children, close tag); the source delegates this to the
external `node.prettify`, which is not part of this repository. Text nodes
serialize to their raw characters; `other` nodes (which the parser never
produces) to nothing. -/
def serializeNode : Node → Str
  | Node.text s => s
  | Node.other => []
  | Node.elem name attrs children =>
      openTagStr (lowerName name) attrs ++ serializeList children
        ++ closeTagStr (lowerName name)

/-- Serialization of a list of sibling nodes, in order. -/
def serializeList : List Node → Str
  | [] => []
  | n :: ns => serializeNode n ++ serializeList ns

end

/-- The single error kind of the source (`SplitMessageError`), with one
constructor per `raise` site in `split_message`. -/
inductive SplitMessageError where
  | emptyTextNoFit
  | openTagTooBig (tag : Str)
  | closeTagTooBig (tag : Str)
  | closeTagNoFit (tag : Str)
  | atomicTooBig (tag : Str)
  | atomicNoFit (tag : Str)
deriving DecidableEq

/-- The nonlocal traversal state: `current_fragment`, `open_blocks_stack`, and
the fragments yielded so far. -/
structure St where
  cur : Str
  stack : List Str
  out : List Str

/-- `safe_append`: append `content` to the current fragment unless that would
exceed `max_len`. -/
def safe_append (maxLen : Nat) (content : Str) (st : St) : Option St :=
  if maxLen < st.cur.length + content.length then none
  else some { st with cur := st.cur ++ content }

/-- `flush_fragment`: the finished fragment string, with the open blocks
closed when `close_tags` is set. -/
def flush_fragment (st : St) (close_tags : Bool) : Str :=
  if close_tags then st.cur ++ close_block_tags st.stack else st.cur

/-- One flush-and-reopen of the whole-text branches: yield
`flush_fragment(cur, close_tags=True)`, reset the buffer, re-open the stack. -/
def flushReopen (st : St) : St :=
  { cur := open_block_tags st.stack, stack := st.stack,
    out := st.out ++ [flush_fragment st true] }

/-- The non-whitespace text loop of `traverse` (the `while idx < len(text_str)`
loop), with explicit fuel. Each iteration consumes at least one character when
`0 < maxLen`, so fuel `text.length` is exact; when `max_len = 0` the source
loop makes no progress and never terminates, which the model cuts off by
exhausting fuel. -/
def chunkLoopF (maxLen : Nat) (stack : List Str) :
    Nat → Str → Str → List Str → Str × List Str
  | _, [], cur, out => (cur, out)
  | 0, _ :: _, cur, out => (cur, out)
  | fuel + 1, c :: rest, cur, out =>
      if maxLen ≤ cur.length then
        chunkLoopF maxLen stack fuel ((c :: rest).drop maxLen)
          (open_block_tags stack ++ (c :: rest).take maxLen)
          (out ++ [cur ++ close_block_tags stack])
      else
        chunkLoopF maxLen stack fuel ((c :: rest).drop (maxLen - cur.length))
          (cur ++ (c :: rest).take (maxLen - cur.length)) out

/-- The text loop run with its canonical fuel. -/
def chunkText (maxLen : Nat) (stack : List Str) (text : Str) (cur : Str)
    (out : List Str) : Str × List Str :=
  chunkLoopF maxLen stack text.length text cur out

/-- The recurring two-phase pattern of the source: try `safe_append` in the
current fragment; on failure flush it (closing the open blocks), re-open the
blocks in a fresh fragment and retry; a second failure raises `e`. -/
def appendOrFlush (maxLen : Nat) (content : Str) (st : St) (e : SplitMessageError) :
    Except SplitMessageError St :=
  match safe_append maxLen content st with
  | some st₁ => Except.ok st₁
  | none =>
      match safe_append maxLen content (flushReopen st) with
      | some st₁ => Except.ok st₁
      | none => Except.error e

mutual

/-- `traverse` from the source: recursive descent over one node, threading the
nonlocal state explicitly; `raise SplitMessageError(...)` becomes `Except.error`. -/
def traverse (maxLen : Nat) (node : Node) (st : St) : Except SplitMessageError St :=
  match node with
  | Node.text s =>
      if isAllSpace s then
        appendOrFlush maxLen s st SplitMessageError.emptyTextNoFit
      else
        let r := chunkText maxLen st.stack s st.cur st.out
        Except.ok { cur := r.1, stack := st.stack, out := r.2 }
  | Node.elem name attrs children =>
      let tag := lowerName name
      let openTag := openTagStr tag attrs
      let closeTag := closeTagStr tag
      if isBlock tag then
        match appendOrFlush maxLen openTag st (SplitMessageError.openTagTooBig tag) with
        | Except.error e => Except.error e
        | Except.ok st₁ =>
            match traverseList maxLen children { st₁ with stack := st₁.stack ++ [tag] } with
            | Except.error e => Except.error e
            | Except.ok st₃ =>
                match safe_append maxLen closeTag st₃ with
                | some st₄ => Except.ok { st₄ with stack := st₄.stack.dropLast }
                | none =>
                    let st₄ : St := { cur := [], stack := st₃.stack.dropLast,
                                      out := st₃.out ++ [flush_fragment st₃ false] }
                    if maxLen < closeTag.length then
                      Except.error (SplitMessageError.closeTagTooBig tag)
                    else
                      match safe_append maxLen closeTag
                          { st₄ with cur := open_block_tags st₄.stack } with
                      | some st₅ => Except.ok st₅
                      | none => Except.error (SplitMessageError.closeTagNoFit tag)
      else
        let full := serializeNode node
        if maxLen < full.length then
          Except.error (SplitMessageError.atomicTooBig tag)
        else
          appendOrFlush maxLen full st (SplitMessageError.atomicNoFit tag)
  | Node.other => Except.ok st

/-- `for child in node.children: yield from traverse(child)`. -/
def traverseList (maxLen : Nat) (nodes : List Node) (st : St) :
    Except SplitMessageError St :=
  match nodes with
  | [] => Except.ok st
  | n :: ns =>
      match traverse maxLen n st with
      | Except.error e => Except.error e
      | Except.ok st₁ => traverseList maxLen ns st₁

end

/-- `split_message` from the source: run the traversal over the root node list
from the empty state, then flush a final non-empty buffer with its tags closed. -/
def split_message (nodes : List Node) (maxLen : Nat) :
    Except SplitMessageError (List Str) :=
  match traverseList maxLen nodes { cur := [], stack := [], out := [] } with
  | Except.error e => Except.error e
  | Except.ok st =>
      Except.ok (if st.cur.isEmpty then st.out else st.out ++ [flush_fragment st true])

/-! Auxiliary notions used to state the claims. -/

/-- State of the simple tag scanner used to state balance properties of
concrete fragments: an optional tag under construction (closing flag, name
characters in reverse) and the stack of tags opened but not yet closed. -/
structure Scan where
  cur : Option (Bool × Str)
  stack : List Str

/-- One scanner step: collect `<name>` and `</name>` tokens, push opens,
pop a close that matches the innermost open. Adequate for fragments whose
tags carry no attributes. -/
def scanChar (st : Scan) (c : Char) : Scan :=
  match st.cur with
  | none => if c = '<' then { st with cur := some (false, []) } else st
  | some (closing, name) =>
      if c = '>' then
        if closing then
          if st.stack.getLast? = some name.reverse then
            { cur := none, stack := st.stack.dropLast }
          else { cur := none, stack := st.stack }
        else { cur := none, stack := st.stack ++ [name.reverse] }
      else if c = '/' && name.isEmpty then { st with cur := some (true, name) }
      else { st with cur := some (closing, c :: name) }

/-- Tags a fragment opens without closing, outermost first. -/
def unclosedTags (s : Str) : List Str :=
  (s.foldl scanChar { cur := none, stack := [] }).stack

/-- The run of opening tags a fragment starts with (its re-opened block tags). -/
def leadingOpensGo : Str → Option Str → List Str → List Str
  | [], _, acc => acc
  | c :: rest, none, acc =>
      if c = '<' then leadingOpensGo rest (some []) acc else acc
  | c :: rest, some name, acc =>
      if c = '>' then leadingOpensGo rest none (acc ++ [name.reverse])
      else if c = '/' && name.isEmpty then acc
      else leadingOpensGo rest (some (c :: name)) acc

/-- The maximal sequence of opening tags at the very start of a fragment. -/
def leadingOpens (s : Str) : List Str := leadingOpensGo s none []

mutual

/-- A node contains (or is) an atomic element whose full serialization is
longer than `maxLen`. -/
def hasOversizedAtomic (maxLen : Nat) : Node → Bool
  | Node.text _ => false
  | Node.other => false
  | Node.elem name attrs children =>
      (!isBlock (lowerName name)
        && decide (maxLen < (serializeNode (Node.elem name attrs children)).length))
      || anyOversizedAtomic maxLen children

/-- Some node of the list contains an oversized atomic element. -/
def anyOversizedAtomic (maxLen : Nat) : List Node → Bool
  | [] => false
  | n :: ns => hasOversizedAtomic maxLen n || anyOversizedAtomic maxLen ns

end

mutual

/-- The raw text content of a subtree: the characters of its text nodes, in order. -/
def textContentNode : Node → Str
  | Node.text s => s
  | Node.other => []
  | Node.elem _ _ children => textContentList children

/-- The raw text content of a node list, in order. -/
def textContentList : List Node → Str
  | [] => []
  | n :: ns => textContentNode n ++ textContentList ns

end

/-- A fragment split into the block tags re-opened at its start, its core
content, and the block tags re-closed at its end. -/
structure FragParts where
  pre : List Str
  core : Str
  post : List Str

/-- Render a decomposed fragment back to its string. -/
def renderParts (p : FragParts) : Str :=
  open_block_tags p.pre ++ p.core ++ close_block_tags p.post

/-- Every entry of a tag stack is a block tag name. -/
def blocksOnly (σ : List Str) : Prop := ∀ t ∈ σ, isBlock t = true

/-- The inserted boundary material of a decomposed fragment consists of block
tag names only. -/
def partOk (p : FragParts) : Prop := blocksOnly p.pre ∧ blocksOnly p.post

/-- The decomposition invariant of the traversal state: every fragment emitted
so far splits into re-opened block tags, core content and re-closed block tags;
the buffer splits into re-opened block tags followed by core content; and the
cores concatenate to exactly the serialized content consumed so far (`done`). -/
def InvSt (st : St) (done : Str) : Prop :=
  blocksOnly st.stack ∧
  ∃ (parts : List FragParts) (σ : List Str) (core : Str),
    st.out = parts.map renderParts ∧
    st.cur = open_block_tags σ ++ core ∧
    (∀ p ∈ parts, partOk p) ∧ blocksOnly σ ∧
    (parts.map FragParts.core).flatten ++ core = done

/-! Basic lemmas about the embedded operations. -/

theorem open_block_tags_nil : open_block_tags [] = [] := rfl

theorem close_block_tags_nil : close_block_tags [] = [] := rfl

theorem chunkLoopF_nil (maxLen : Nat) (stack : List Str) (fuel : Nat) (cur : Str)
    (out : List Str) : chunkLoopF maxLen stack fuel [] cur out = (cur, out) := by
  cases fuel <;> rfl

theorem chunkLoopF_succ_cons (maxLen : Nat) (stack : List Str) (fuel : Nat) (c : Char)
    (rest cur : Str) (out : List Str) :
    chunkLoopF maxLen stack (fuel + 1) (c :: rest) cur out =
      if maxLen ≤ cur.length then
        chunkLoopF maxLen stack fuel ((c :: rest).drop maxLen)
          (open_block_tags stack ++ (c :: rest).take maxLen)
          (out ++ [cur ++ close_block_tags stack])
      else
        chunkLoopF maxLen stack fuel ((c :: rest).drop (maxLen - cur.length))
          (cur ++ (c :: rest).take (maxLen - cur.length)) out := rfl

theorem safe_append_of_le {maxLen : Nat} {content : Str} {st : St}
    (h : st.cur.length + content.length ≤ maxLen) :
    safe_append maxLen content st = some { st with cur := st.cur ++ content } := by
  unfold safe_append
  rw [if_neg (by omega)]

theorem appendOrFlush_of_le {maxLen : Nat} {content : Str} {st : St}
    {e : SplitMessageError} (h : st.cur.length + content.length ≤ maxLen) :
    appendOrFlush maxLen content st e =
      Except.ok { st with cur := st.cur ++ content } := by
  unfold appendOrFlush
  rw [safe_append_of_le h]

/-! Content that fits entirely in the remaining room of the current fragment is
appended verbatim, with no flush: the traversal appends exactly the
serialization of the node. -/

mutual

theorem traverse_fits_node (maxLen : Nat) (n : Node) : ∀ st : St,
    st.cur.length + (serializeNode n).length ≤ maxLen →
    traverse maxLen n st = Except.ok { st with cur := st.cur ++ serializeNode n } := by
  cases n with
  | text s =>
      intro st h
      by_cases hsp : isAllSpace s = true
      · simp only [traverse, hsp, if_true]
        exact appendOrFlush_of_le (by simpa [serializeNode] using h)
      · have hs : s ≠ [] := by
          intro he
          subst he
          simp [isAllSpace] at hsp
        obtain ⟨c, rest, rfl⟩ : ∃ c rest, s = c :: rest := by
          cases s with
          | nil => exact absurd rfl hs
          | cons c rest => exact ⟨c, rest, rfl⟩
        have hlen : st.cur.length + (c :: rest).length ≤ maxLen := by
          simpa [serializeNode] using h
        simp only [traverse, hsp, if_false, Bool.false_eq_true]
        unfold chunkText
        simp only [List.length_cons, chunkLoopF_succ_cons]
        rw [if_neg (by simp at hlen ⊢; omega)]
        rw [List.take_of_length_le (by simp at hlen ⊢; omega),
          List.drop_eq_nil_of_le (by simp at hlen ⊢; omega)]
        rw [chunkLoopF_nil]
        simp [serializeNode]
  | other =>
      intro st h
      simp [traverse, serializeNode]
  | elem name attrs children =>
      intro st h
      have hser : serializeNode (Node.elem name attrs children)
          = openTagStr (lowerName name) attrs ++ serializeList children
            ++ closeTagStr (lowerName name) := rfl
      rw [hser] at h
      simp only [List.length_append] at h
      by_cases hb : isBlock (lowerName name) = true
      · simp only [traverse, hb, if_true]
        rw [appendOrFlush_of_le (by omega)]
        simp only []
        rw [traverse_fits_list maxLen children _ (by simp; omega)]
        simp only []
        rw [safe_append_of_le (by simp; omega)]
        simp only []
        rw [hser]
        simp [List.dropLast_concat, List.append_assoc]
      · simp only [traverse, hb, if_false, Bool.false_eq_true]
        rw [if_neg (by rw [hser]; simp; omega)]
        rw [appendOrFlush_of_le (by rw [hser]; simp; omega)]

theorem traverse_fits_list (maxLen : Nat) (ns : List Node) : ∀ st : St,
    st.cur.length + (serializeList ns).length ≤ maxLen →
    traverseList maxLen ns st =
      Except.ok { st with cur := st.cur ++ serializeList ns } := by
  cases ns with
  | nil =>
      intro st h
      simp [traverseList, serializeList]
  | cons n ns =>
      intro st h
      have hlen : st.cur.length + (serializeNode n).length
          + (serializeList ns).length ≤ maxLen := by
        simpa [serializeList, List.length_append, Nat.add_assoc] using h
      simp only [traverseList]
      rw [traverse_fits_node maxLen n st (by omega)]
      simp only []
      rw [traverse_fits_list maxLen ns _ (by simp; omega)]
      simp [serializeList, List.append_assoc]

end

/-! An oversized atomic element makes its whole ancestor chain oversized, and
the traversal always raises on it. -/

mutual

theorem oversized_node_length (maxLen : Nat) (n : Node) :
    hasOversizedAtomic maxLen n = true → maxLen < (serializeNode n).length := by
  cases n with
  | text s => intro h; simp [hasOversizedAtomic] at h
  | other => intro h; simp [hasOversizedAtomic] at h
  | elem name attrs children =>
      intro h
      simp only [hasOversizedAtomic, Bool.or_eq_true, Bool.and_eq_true,
        decide_eq_true_eq] at h
      rcases h with ⟨_, hlen⟩ | hany
      · exact hlen
      · have := oversized_list_length maxLen children hany
        have hser : serializeNode (Node.elem name attrs children)
            = openTagStr (lowerName name) attrs ++ serializeList children
              ++ closeTagStr (lowerName name) := rfl
        rw [hser]
        simp only [List.length_append]
        omega

theorem oversized_list_length (maxLen : Nat) (ns : List Node) :
    anyOversizedAtomic maxLen ns = true → maxLen < (serializeList ns).length := by
  cases ns with
  | nil => intro h; simp [anyOversizedAtomic] at h
  | cons n ns =>
      intro h
      simp only [anyOversizedAtomic, Bool.or_eq_true] at h
      have hser : serializeList (n :: ns) = serializeNode n ++ serializeList ns := rfl
      rw [hser]
      simp only [List.length_append]
      rcases h with h1 | h2
      · have := oversized_node_length maxLen n h1
        omega
      · have := oversized_list_length maxLen ns h2
        omega

end

mutual

theorem traverse_oversized_node (maxLen : Nat) (n : Node) : ∀ st : St,
    hasOversizedAtomic maxLen n = true →
    ∃ e, traverse maxLen n st = Except.error e := by
  cases n with
  | text s => intro st h; simp [hasOversizedAtomic] at h
  | other => intro st h; simp [hasOversizedAtomic] at h
  | elem name attrs children =>
      intro st h
      by_cases hb : isBlock (lowerName name) = true
      · have hany : anyOversizedAtomic maxLen children = true := by
          simpa [hasOversizedAtomic, hb] using h
        simp only [traverse, hb, if_true]
        cases happ : appendOrFlush maxLen (openTagStr (lowerName name) attrs) st
            (SplitMessageError.openTagTooBig (lowerName name)) with
        | error e => exact ⟨e, rfl⟩
        | ok st₁ =>
            obtain ⟨e, he⟩ := traverse_oversized_list maxLen children
              { st₁ with stack := st₁.stack ++ [lowerName name] } hany
            exact ⟨e, by simp [he]⟩
      · have hbig : maxLen < (serializeNode (Node.elem name attrs children)).length := by
          exact oversized_node_length maxLen _ h
        simp only [traverse, hb, if_false, Bool.false_eq_true]
        rw [if_pos hbig]
        exact ⟨_, rfl⟩

theorem traverse_oversized_list (maxLen : Nat) (ns : List Node) : ∀ st : St,
    anyOversizedAtomic maxLen ns = true →
    ∃ e, traverseList maxLen ns st = Except.error e := by
  cases ns with
  | nil => intro st h; simp [anyOversizedAtomic] at h
  | cons n ns =>
      intro st h
      simp only [traverseList]
      by_cases h1 : hasOversizedAtomic maxLen n = true
      · obtain ⟨e, he⟩ := traverse_oversized_node maxLen n st h1
        exact ⟨e, by rw [he]⟩
      · have h2 : anyOversizedAtomic maxLen ns = true := by
          simpa [anyOversizedAtomic, h1] using h
        cases htr : traverse maxLen n st with
        | error e => exact ⟨e, rfl⟩
        | ok st₁ =>
            obtain ⟨e, he⟩ := traverse_oversized_list maxLen ns st₁ h2
            exact ⟨e, by simp [he]⟩

end

/-! With an empty tag stack the text loop cuts the text into fragments of
exactly `maxLen` characters, keeping the remainder in the buffer. -/

theorem chunkLoopF_nil_stack (maxLen : Nat) (h0 : 0 < maxLen) :
    ∀ (fuel : Nat) (text cur : Str) (out : List Str),
      text.length ≤ fuel → cur.length ≤ maxLen → (cur ≠ [] ∨ text ≠ []) →
      ∃ (body : List Str) (lastf : Str),
        chunkLoopF maxLen [] fuel text cur out = (lastf, out ++ body) ∧
        (∀ f ∈ body, f.length = maxLen) ∧
        body.flatten ++ lastf = cur ++ text ∧
        lastf.length ≤ maxLen ∧ lastf ≠ [] := by
  intro fuel
  induction fuel with
  | zero =>
      intro text cur out hf hc hne
      have htext : text = [] := List.eq_nil_of_length_eq_zero (Nat.le_zero.mp hf)
      subst htext
      refine ⟨[], cur, ?_, ?_, ?_, hc, ?_⟩
      · rw [chunkLoopF_nil]; simp
      · simp
      · simp
      · rcases hne with h | h
        · exact h
        · exact absurd rfl h
  | succ fuel ih =>
      intro text cur out hf hc hne
      cases text with
      | nil =>
          refine ⟨[], cur, ?_, ?_, ?_, hc, ?_⟩
          · rw [chunkLoopF_nil]; simp
          · simp
          · simp
          · rcases hne with h | h
            · exact h
            · exact absurd rfl h
      | cons c rest =>
          rw [chunkLoopF_succ_cons]
          by_cases hfull : maxLen ≤ cur.length
          · have hcm : cur.length = maxLen := Nat.le_antisymm hc hfull
            rw [if_pos hfull]
            rw [open_block_tags_nil, close_block_tags_nil, List.nil_append,
              List.append_nil]
            obtain ⟨body, lastf, heq, hall, hcat, hle, hne2⟩ :=
              ih ((c :: rest).drop maxLen) ((c :: rest).take maxLen) (out ++ [cur])
                (by simp [List.length_drop] at hf ⊢; omega)
                (by simp [List.length_take])
                (Or.inl (by
                  obtain ⟨m, rfl⟩ : ∃ m, maxLen = m + 1 := ⟨maxLen - 1, by omega⟩
                  simp))
            refine ⟨cur :: body, lastf, ?_, ?_, ?_, hle, hne2⟩
            · rw [heq]; simp
            · intro f hf2
              rcases List.mem_cons.mp hf2 with h | h
              · rw [h, hcm]
              · exact hall f h
            · rw [List.flatten_cons, List.append_assoc, hcat,
                List.take_append_drop]
          · rw [if_neg hfull]
            obtain ⟨body, lastf, heq, hall, hcat, hle, hne2⟩ :=
              ih ((c :: rest).drop (maxLen - cur.length))
                (cur ++ (c :: rest).take (maxLen - cur.length)) out
                (by simp [List.length_drop] at hf ⊢; omega)
                (by simp [List.length_take]; omega)
                (Or.inl (by
                  simp
                  intro hcur
                  subst hcur
                  simp
                  omega))
            refine ⟨body, lastf, heq, hall, ?_, hle, hne2⟩
            rw [hcat, List.append_assoc, List.take_append_drop]

theorem flatten_length_of_all {L : List Str} {m : Nat}
    (h : ∀ f ∈ L, f.length = m) : L.flatten.length = L.length * m := by
  induction L with
  | nil => simp
  | cons x xs ih =>
      rw [List.flatten_cons, List.length_append, h x (by simp),
        ih (fun f hf => h f (by simp [hf])), List.length_cons, Nat.succ_mul]
      omega

theorem ceil_count {m k r : Nat} (h0 : 0 < m) (h1 : 1 ≤ r) (h2 : r ≤ m) :
    (k * m + r + m - 1) / m = k + 1 := by
  have hr : k * m + r + m - 1 = m * (k + 1) + (r - 1) := by
    have : m * (k + 1) = k * m + m := by ring
    omega
  rw [hr, Nat.mul_add_div h0, Nat.div_eq_of_lt (by omega)]

/-! The decomposition invariant: every emitted fragment is re-opened block
tags, core content, re-closed block tags, and the cores concatenate to the
serialization of the consumed input. -/

theorem safe_append_eq_some {maxLen : Nat} {content : Str} {st st₁ : St}
    (h : safe_append maxLen content st = some st₁) :
    st₁ = { st with cur := st.cur ++ content } := by
  unfold safe_append at h
  split at h
  · cases h
  · exact (Option.some.inj h).symm

theorem blocksOnly_nil : blocksOnly [] := by
  intro t ht
  cases ht

theorem blocksOnly_dropLast {l : List Str} (h : blocksOnly l) :
    blocksOnly l.dropLast := by
  intro t ht
  exact h t (l.dropLast_sublist.subset ht)

theorem blocksOnly_concat {l : List Str} {t : Str} (h : blocksOnly l)
    (ht : isBlock t = true) : blocksOnly (l ++ [t]) := by
  intro u hu
  rcases List.mem_append.mp hu with h1 | h1
  · exact h u h1
  · rw [List.mem_singleton.mp h1]
    exact ht

theorem InvSt_flushReopen {st : St} {done : Str} (h : InvSt st done) :
    InvSt (flushReopen st) done := by
  obtain ⟨hstack, parts, σ, core, hout, hcur, hpo, hσ, hflat⟩ := h
  refine ⟨hstack, parts ++ [FragParts.mk σ core st.stack], st.stack, [], ?_, ?_, ?_,
    hstack, ?_⟩
  · simp [flushReopen, flush_fragment, hout, hcur, renderParts]
  · simp [flushReopen]
  · intro p hp
    rcases List.mem_append.mp hp with h1 | h1
    · exact hpo p h1
    · rw [List.mem_singleton.mp h1]
      exact ⟨hσ, hstack⟩
  · simpa using hflat

theorem InvSt_append {maxLen : Nat} {content : Str} {st st₁ : St} {done : Str}
    (happ : safe_append maxLen content st = some st₁) (h : InvSt st done) :
    InvSt st₁ (done ++ content) := by
  obtain ⟨hstack, parts, σ, core, hout, hcur, hpo, hσ, hflat⟩ := h
  rw [safe_append_eq_some happ]
  refine ⟨hstack, parts, σ, core ++ content, hout, ?_, hpo, hσ, ?_⟩
  · rw [hcur, List.append_assoc]
  · rw [← List.append_assoc, hflat]

theorem InvSt_appendOrFlush {maxLen : Nat} {content : Str} {st st₁ : St}
    {e : SplitMessageError} {done : Str}
    (happ : appendOrFlush maxLen content st e = Except.ok st₁) (h : InvSt st done) :
    InvSt st₁ (done ++ content) := by
  unfold appendOrFlush at happ
  cases h1 : safe_append maxLen content st with
  | some st₂ =>
      simp only [h1] at happ
      obtain rfl : st₂ = st₁ := by injection happ
      exact InvSt_append h1 h
  | none =>
      simp only [h1] at happ
      cases h2 : safe_append maxLen content (flushReopen st) with
      | some st₂ =>
          simp only [h2] at happ
          obtain rfl : st₂ = st₁ := by injection happ
          exact InvSt_append h2 (InvSt_flushReopen h)
      | none => simp only [h2] at happ; cases happ

theorem chunkLoopF_inv (maxLen : Nat) (stack : List Str) (hstack : blocksOnly stack)
    (h0 : 0 < maxLen) :
    ∀ (fuel : Nat) (text : Str) (σ : List Str) (core : Str) (parts : List FragParts),
      text.length ≤ fuel → blocksOnly σ → (∀ p ∈ parts, partOk p) →
      ∃ (parts₂ : List FragParts) (σ₂ : List Str) (core₂ : Str),
        chunkLoopF maxLen stack fuel text (open_block_tags σ ++ core)
            (parts.map renderParts)
          = (open_block_tags σ₂ ++ core₂, parts₂.map renderParts) ∧
        (∀ p ∈ parts₂, partOk p) ∧ blocksOnly σ₂ ∧
        (parts₂.map FragParts.core).flatten ++ core₂
          = (parts.map FragParts.core).flatten ++ core ++ text := by
  intro fuel
  induction fuel with
  | zero =>
      intro text σ core parts hf hσ hpo
      have htext : text = [] := List.eq_nil_of_length_eq_zero (Nat.le_zero.mp hf)
      subst htext
      exact ⟨parts, σ, core, by rw [chunkLoopF_nil], hpo, hσ, by simp⟩
  | succ fuel ih =>
      intro text σ core parts hf hσ hpo
      cases text with
      | nil => exact ⟨parts, σ, core, by rw [chunkLoopF_nil], hpo, hσ, by simp⟩
      | cons c rest =>
          rw [chunkLoopF_succ_cons]
          by_cases hfull : maxLen ≤ (open_block_tags σ ++ core).length
          · rw [if_pos hfull]
            have hout2 : parts.map renderParts
                ++ [open_block_tags σ ++ core ++ close_block_tags stack]
                = (parts ++ [FragParts.mk σ core stack]).map renderParts := by
              simp [renderParts, List.append_assoc]
            rw [hout2]
            obtain ⟨parts₂, σ₂, core₂, heq, hpo₂, hσ₂, hflat₂⟩ :=
              ih ((c :: rest).drop maxLen) stack ((c :: rest).take maxLen)
                (parts ++ [FragParts.mk σ core stack])
                (by simp [List.length_drop] at hf ⊢; omega) hstack
                (by
                  intro p hp
                  rcases List.mem_append.mp hp with h1 | h1
                  · exact hpo p h1
                  · rw [List.mem_singleton.mp h1]
                    exact ⟨hσ, hstack⟩)
            refine ⟨parts₂, σ₂, core₂, heq, hpo₂, hσ₂, ?_⟩
            rw [hflat₂]
            simp only [List.map_append, List.flatten_append, List.map_cons,
              List.map_nil, List.flatten_cons, List.flatten_nil, List.append_nil,
              List.append_assoc, List.take_append_drop]
          · rw [if_neg hfull]
            rw [List.append_assoc]
            obtain ⟨parts₂, σ₂, core₂, heq, hpo₂, hσ₂, hflat₂⟩ :=
              ih ((c :: rest).drop (maxLen - (open_block_tags σ ++ core).length)) σ
                (core ++ (c :: rest).take (maxLen - (open_block_tags σ ++ core).length))
                parts
                (by
                  simp only [List.length_drop, List.length_append,
                    List.length_cons] at hf hfull ⊢
                  omega) hσ hpo
            refine ⟨parts₂, σ₂, core₂, heq, hpo₂, hσ₂, ?_⟩
            rw [hflat₂]
            simp only [List.append_assoc, List.take_append_drop]

mutual

theorem traverse_inv_node (maxLen : Nat) (h0 : 0 < maxLen) (n : Node) :
    ∀ (st st₂ : St) (done : Str),
      InvSt st done → traverse maxLen n st = Except.ok st₂ →
      InvSt st₂ (done ++ serializeNode n) := by
  cases n with
  | text s =>
      intro st st₂ done hinv htr
      by_cases hsp : isAllSpace s = true
      · simp only [traverse, hsp, if_true] at htr
        exact InvSt_appendOrFlush htr hinv
      · simp only [traverse, hsp, Bool.false_eq_true, if_false] at htr
        obtain ⟨hstack, parts, σ, core, hout, hcur, hpo, hσ, hflat⟩ := hinv
        obtain ⟨parts₂, σ₂, core₂, heq, hpo₂, hσ₂, hflat₂⟩ :=
          chunkLoopF_inv maxLen st.stack hstack h0 s.length s σ core parts
            le_rfl hσ hpo
        have hr : chunkText maxLen st.stack s st.cur st.out
            = (open_block_tags σ₂ ++ core₂, parts₂.map renderParts) := by
          unfold chunkText
          rw [hcur, hout]
          exact heq
        obtain rfl :
            ({ cur := (chunkText maxLen st.stack s st.cur st.out).1,
               stack := st.stack,
               out := (chunkText maxLen st.stack s st.cur st.out).2 } : St) = st₂ := by
          injection htr
        refine ⟨hstack, parts₂, σ₂, core₂, ?_, ?_, hpo₂, hσ₂, ?_⟩
        · rw [hr]
        · rw [hr]
        · rw [hflat₂, ← hflat]
          simp [serializeNode, List.append_assoc]
  | other =>
      intro st st₂ done hinv htr
      obtain rfl : st = st₂ := by injection htr
      simpa [serializeNode] using hinv
  | elem name attrs children =>
      intro st st₂ done hinv htr
      simp only [traverse] at htr
      by_cases hb : isBlock (lowerName name) = true
      · simp only [hb, if_true] at htr
        cases happ : appendOrFlush maxLen (openTagStr (lowerName name) attrs) st
            (SplitMessageError.openTagTooBig (lowerName name)) with
        | error e => simp [happ] at htr
        | ok st₁ =>
            simp only [happ] at htr
            have hinv₁ : InvSt st₁ (done ++ openTagStr (lowerName name) attrs) :=
              InvSt_appendOrFlush happ hinv
            have hinv₁' : InvSt { st₁ with stack := st₁.stack ++ [lowerName name] }
                (done ++ openTagStr (lowerName name) attrs) := by
              obtain ⟨hs, parts, σ, core, a, b, c, d, e⟩ := hinv₁
              exact ⟨blocksOnly_concat hs hb, parts, σ, core, a, b, c, d, e⟩
            cases hch : traverseList maxLen children
                { st₁ with stack := st₁.stack ++ [lowerName name] } with
            | error e => simp [hch] at htr
            | ok st₃ =>
                simp only [hch] at htr
                have hinv₃ := traverse_inv_list maxLen h0 children _ st₃ _ hinv₁' hch
                cases hcl : safe_append maxLen (closeTagStr (lowerName name)) st₃ with
                | some st₄ =>
                    simp only [hcl] at htr
                    obtain rfl :
                        ({ cur := st₄.cur, stack := st₄.stack.dropLast,
                           out := st₄.out } : St) = st₂ := by injection htr
                    have hinv₄ := InvSt_append hcl hinv₃
                    obtain ⟨hs, parts, σ, core, a, b, c, d, e⟩ := hinv₄
                    refine ⟨blocksOnly_dropLast hs, parts, σ, core, a, b, c, d, ?_⟩
                    rw [e]
                    simp [serializeNode, List.append_assoc]
                | none =>
                    simp only [hcl] at htr
                    by_cases hbig : maxLen < (closeTagStr (lowerName name)).length
                    · simp [hbig] at htr
                    · simp only [hbig, if_false] at htr
                      cases hcl2 : safe_append maxLen (closeTagStr (lowerName name))
                          { cur := open_block_tags st₃.stack.dropLast,
                            stack := st₃.stack.dropLast,
                            out := st₃.out ++ [flush_fragment st₃ false] } with
                      | none => simp [hcl2] at htr
                      | some st₅ =>
                          simp only [hcl2] at htr
                          obtain rfl : st₅ = st₂ := by injection htr
                          rw [safe_append_eq_some hcl2]
                          obtain ⟨hs₃, parts₃, σ₃, core₃, a, b, c, d, e⟩ := hinv₃
                          refine ⟨blocksOnly_dropLast hs₃,
                            parts₃ ++ [FragParts.mk σ₃ core₃ []], st₃.stack.dropLast,
                            closeTagStr (lowerName name), ?_, rfl, ?_, ?_, ?_⟩
                          · simp [flush_fragment, a, b, renderParts,
                              close_block_tags_nil]
                          · intro p hp
                            rcases List.mem_append.mp hp with h1 | h1
                            · exact c p h1
                            · rw [List.mem_singleton.mp h1]
                              exact ⟨d, blocksOnly_nil⟩
                          · exact blocksOnly_dropLast hs₃
                          · simp only [List.map_append, List.flatten_append,
                              List.map_cons, List.map_nil, List.flatten_cons,
                              List.flatten_nil, List.append_nil]
                            rw [e]
                            simp [serializeNode, List.append_assoc]
      · simp only [hb, Bool.false_eq_true, if_false] at htr
        by_cases hbig : maxLen
            < (serializeNode (Node.elem name attrs children)).length
        · simp [hbig] at htr
        · simp only [hbig, if_false] at htr
          exact InvSt_appendOrFlush htr hinv

theorem traverse_inv_list (maxLen : Nat) (h0 : 0 < maxLen) (ns : List Node) :
    ∀ (st st₂ : St) (done : Str),
      InvSt st done → traverseList maxLen ns st = Except.ok st₂ →
      InvSt st₂ (done ++ serializeList ns) := by
  cases ns with
  | nil =>
      intro st st₂ done hinv htr
      obtain rfl : st = st₂ := by injection htr
      simpa [serializeList] using hinv
  | cons n ns =>
      intro st st₂ done hinv htr
      simp only [traverseList] at htr
      cases htr1 : traverse maxLen n st with
      | error e => simp [htr1] at htr
      | ok st₁ =>
          simp only [htr1] at htr
          have h1 := traverse_inv_node maxLen h0 n st st₁ done hinv htr1
          have h2 := traverse_inv_list maxLen h0 ns st₁ st₂ _ h1 htr
          have hser : serializeList (n :: ns) = serializeNode n ++ serializeList ns :=
            rfl
          rw [hser, ← List.append_assoc]
          exact h2

end

/-- The initial state satisfies the invariant with nothing consumed. -/
theorem InvSt_init : InvSt { cur := [], stack := [], out := [] } [] := by
  refine ⟨blocksOnly_nil, [], [], [], rfl, rfl, ?_, blocksOnly_nil, rfl⟩
  intro p hp
  cases hp

/-- On success, the output of `split_message` decomposes fragmentwise into
re-opened block tags, core content and re-closed block tags, with the cores
concatenating to exactly the serialization of the input. -/
theorem split_decomp (nodes : List Node) (maxLen : Nat) (frags : List Str)
    (h0 : 0 < maxLen) (h : split_message nodes maxLen = Except.ok frags) :
    ∃ parts : List FragParts,
      frags = parts.map renderParts ∧
      (parts.map FragParts.core).flatten = serializeList nodes ∧
      ∀ p ∈ parts, partOk p := by
  unfold split_message at h
  cases htr : traverseList maxLen nodes { cur := [], stack := [], out := [] } with
  | error e => simp [htr] at h
  | ok st =>
      simp only [htr] at h
      have hinv : InvSt st (serializeList nodes) := by
        have h1 := traverse_inv_list maxLen h0 nodes _ st [] InvSt_init htr
        simpa using h1
      obtain ⟨hstack, parts, σ, core, hout, hcur, hpo, hσ, hflat⟩ := hinv
      obtain rfl : (if st.cur.isEmpty then st.out
          else st.out ++ [flush_fragment st true]) = frags := by injection h
      by_cases hemp : st.cur.isEmpty = true
      · have hcur0 : st.cur = [] := List.isEmpty_iff.mp hemp
        rw [hcur0] at hcur
        obtain ⟨h1, h2⟩ := List.append_eq_nil.mp hcur.symm
        refine ⟨parts, ?_, ?_, hpo⟩
        · simp [hemp, hout]
        · rw [← hflat, h2, List.append_nil]
      · refine ⟨parts ++ [FragParts.mk σ core st.stack], ?_, ?_, ?_⟩
        · simp only [hemp, if_false, Bool.false_eq_true]
          simp [hout, flush_fragment, hcur, renderParts]
        · simp only [List.map_append, List.flatten_append, List.map_cons,
            List.map_nil, List.flatten_cons, List.flatten_nil, List.append_nil]
          exact hflat
        · intro p hp
          rcases List.mem_append.mp hp with h1 | h1
          · exact hpo p h1
          · rw [List.mem_singleton.mp h1]
            exact ⟨hσ, hstack⟩

/-! The text content of the input is a subsequence of its serialization. -/

mutual

theorem textContent_sublist_node (n : Node) :
    List.Sublist (textContentNode n) (serializeNode n) := by
  cases n with
  | text s => exact List.Sublist.refl s
  | other => exact List.Sublist.refl []
  | elem name attrs children =>
      have h := textContent_sublist_list children
      have h1 : List.Sublist (serializeList children)
          (openTagStr (lowerName name) attrs ++ serializeList children) :=
        List.sublist_append_right _ _
      have h2 : List.Sublist (openTagStr (lowerName name) attrs ++ serializeList children)
          (openTagStr (lowerName name) attrs ++ serializeList children
            ++ closeTagStr (lowerName name)) :=
        List.sublist_append_left _ _
      exact (h.trans h1).trans h2

theorem textContent_sublist_list (ns : List Node) :
    List.Sublist (textContentList ns) (serializeList ns) := by
  cases ns with
  | nil => exact List.Sublist.refl []
  | cons n ns =>
      exact List.Sublist.append (textContent_sublist_node n)
        (textContent_sublist_list ns)

end

/-! Splitting plain non-whitespace text with no tags. -/

theorem split_message_plain_text (s : Str) (maxLen : Nat) (h0 : 0 < maxLen)
    (hnw : isAllSpace s = false) (hs : s ≠ []) :
    ∃ (body : List Str) (lastf : Str),
      split_message [Node.text s] maxLen = Except.ok (body ++ [lastf]) ∧
      (∀ f ∈ body, f.length = maxLen) ∧
      body.flatten ++ lastf = s ∧ lastf.length ≤ maxLen ∧ lastf ≠ [] := by
  obtain ⟨body, lastf, heq, hall, hcat, hle, hne⟩ :=
    chunkLoopF_nil_stack maxLen h0 s.length s [] [] le_rfl (by simp) (Or.inr hs)
  refine ⟨body, lastf, ?_, hall, by simpa using hcat, hle, hne⟩
  unfold split_message
  simp only [traverseList, traverse, hnw, Bool.false_eq_true, if_false]
  unfold chunkText
  rw [heq]
  have hemp : lastf.isEmpty = false := by
    cases lastf with
    | nil => exact absurd rfl hne
    | cons c cs => rfl
  simp [hemp, flush_fragment, close_block_tags_nil]

/-! A block element whose opening tag does not fit after the current content,
but whose whole serialization fits in a fresh fragment, is emitted entirely
into the next fragment (top level: empty stack). -/

theorem appendOrFlush_flush {maxLen : Nat} {content : Str} {st : St}
    {e : SplitMessageError}
    (h1 : maxLen < st.cur.length + content.length)
    (h2 : (open_block_tags st.stack).length + content.length ≤ maxLen) :
    appendOrFlush maxLen content st e =
      Except.ok { cur := open_block_tags st.stack ++ content, stack := st.stack,
                  out := st.out ++ [flush_fragment st true] } := by
  have ha : safe_append maxLen content st = none := by
    unfold safe_append
    rw [if_pos h1]
  have hb : safe_append maxLen content (flushReopen st)
      = some { flushReopen st with cur := (flushReopen st).cur ++ content } :=
    safe_append_of_le (by simp [flushReopen]; omega)
  unfold appendOrFlush
  simp only [ha, hb]
  rfl

theorem traverse_block_after_flush (maxLen : Nat) (name : Str)
    (attrs : List (Str × AttrVal)) (children : List Node) (st : St)
    (hb : isBlock (lowerName name) = true)
    (hstack : st.stack = [])
    (hfit : (serializeNode (Node.elem name attrs children)).length ≤ maxLen)
    (hov : maxLen < st.cur.length + (openTagStr (lowerName name) attrs).length) :
    traverse maxLen (Node.elem name attrs children) st =
      Except.ok { cur := serializeNode (Node.elem name attrs children),
                  stack := [], out := st.out ++ [st.cur] } := by
  obtain ⟨cur, stack, out⟩ := st
  simp only at hstack hov
  subst hstack
  have hlen : (serializeNode (Node.elem name attrs children)).length
      = (openTagStr (lowerName name) attrs).length
        + (serializeList children).length
        + (closeTagStr (lowerName name)).length := by
    show (openTagStr (lowerName name) attrs ++ serializeList children
      ++ closeTagStr (lowerName name)).length = _
    simp [List.length_append]
    omega
  simp only [traverse, hb, if_true]
  rw [appendOrFlush_flush (by simpa using hov)
    (by simp only [open_block_tags_nil, List.length_nil]; omega)]
  simp only [open_block_tags_nil, List.nil_append, flush_fragment,
    close_block_tags_nil, List.append_nil, if_true]
  rw [traverse_fits_list maxLen children
    { cur := openTagStr (lowerName name) attrs, stack := [lowerName name],
      out := out ++ [cur] } (by simp only []; omega)]
  simp only []
  rw [safe_append_of_le (by simp only [List.length_append]; omega)]
  simp only []
  have hdrop : ([lowerName name] : List Str).dropLast = [] := rfl
  have hser : serializeNode (Node.elem name attrs children)
      = openTagStr (lowerName name) attrs ++ serializeList children
        ++ closeTagStr (lowerName name) := rfl
  rw [hser]
  rfl

theorem openTagStr_length_pos (tag : Str) (attrs : List (Str × AttrVal)) :
    0 < (openTagStr tag attrs).length := by
  show 0 < (strOf "<" ++ tag ++ format_attributes attrs ++ strOf ">").length
  have h1 : (strOf "<").length = 1 := rfl
  simp only [List.length_append]
  omega

theorem isEmpty_false_of_length_pos {l : Str} (h : 0 < l.length) :
    l.isEmpty = false := by
  cases l with
  | nil => simp at h
  | cons a as => rfl

/-! The claims. -/

/-- Claim C1: the spec states that for every input and every `max_len > 0`
each emitted fragment has length at most `max_len`, and the docstring of
`split_message` promises the same. The code violates it: on
`<p>1234567890</p>` with `max_len = 10` the first emitted fragment is
`<p>1234567</p>`, of length 14, because `flush_fragment` appends the closing
tags of the open blocks after the buffer has already been filled up to
`max_len`. -/
theorem C1_fragment_exceeds_max_len :
    split_message [Node.elem (strOf "p") [] [Node.text (strOf "1234567890")]] 10
      = Except.ok [strOf "<p>1234567</p>", strOf "<p>890</p>"]
    ∧ 10 < (strOf "<p>1234567</p>").length :=
  ⟨rfl, by decide⟩

/-- Claim C2: the spec requires every block tag a fragment opens to be closed
in that fragment or re-opened at the start of the next one. The code violates
it: on `<div><p>123456</p></div>` with `max_len = 10` the second fragment
`<div><p>3456` leaves both `div` and `p` open, while the third fragment
re-opens only `div` and emits an unmatched `</p>`. -/
theorem C2_unbalanced_fragment :
    split_message [Node.elem (strOf "div") []
        [Node.elem (strOf "p") [] [Node.text (strOf "123456")]]] 10
      = Except.ok [strOf "<div><p>12</p></div>", strOf "<div><p>3456",
          strOf "<div></p>", strOf "</div>"]
    ∧ unclosedTags (strOf "<div><p>3456") = [strOf "div", strOf "p"]
    ∧ leadingOpens (strOf "<div></p>") = [strOf "div"]
    ∧ (strOf "p") ∉ leadingOpens (strOf "<div></p>") :=
  ⟨rfl, by decide, by decide, by decide⟩

/-- Claim C3: whenever the input contains an atomic (non-block) element whose
full serialization is longer than `max_len`, `split_message` raises
`SplitMessageError`, regardless of the surrounding content (stated for the
positive budgets of the input contract). -/
theorem C3_oversized_atomic_raises (nodes : List Node) (maxLen : Nat)
    (_h0 : 0 < maxLen) (h : anyOversizedAtomic maxLen nodes = true) :
    ∃ e, split_message nodes maxLen = Except.error e := by
  obtain ⟨e, he⟩ := traverse_oversized_list maxLen nodes
    { cur := [], stack := [], out := [] } h
  refine ⟨e, ?_⟩
  unfold split_message
  rw [he]

/-- Witness for C3 at `<code>123456789</code>` with `max_len = 5`. -/
theorem C3_oversized_atomic_raises_witness :
    (0 < 5
      ∧ anyOversizedAtomic 5
          [Node.elem (strOf "code") [] [Node.text (strOf "123456789")]] = true)
    ∧ ∃ e, split_message
        [Node.elem (strOf "code") [] [Node.text (strOf "123456789")]] 5
      = Except.error e :=
  ⟨⟨by decide, by decide⟩,
    C3_oversized_atomic_raises
      [Node.elem (strOf "code") [] [Node.text (strOf "123456789")]] 5
      (by decide) (by decide)⟩

/-- Claim C4 counterexample: two consecutive block elements, each fitting
`max_len = 10` alone and jointly exceeding it, for which the code does not
split between the elements: the second element opening tag still fits in the
first fragment, so the first fragment is `<b></b><p></p>` (it contains the
second element opening tag plus a re-closing of it, and is not the first
element serialization `<b></b>`). -/
theorem C4_counterexample :
    isBlock (lowerName (strOf "b")) = true
    ∧ isBlock (lowerName (strOf "p")) = true
    ∧ (serializeNode (Node.elem (strOf "b") [] [])).length ≤ 10
    ∧ (serializeNode (Node.elem (strOf "p") [] [Node.text (strOf "12")])).length
        ≤ 10
    ∧ 10 < (serializeNode (Node.elem (strOf "b") [] [])).length
        + (serializeNode (Node.elem (strOf "p") [] [Node.text (strOf "12")])).length
    ∧ split_message [Node.elem (strOf "b") [] [],
        Node.elem (strOf "p") [] [Node.text (strOf "12")]] 10
      = Except.ok [strOf "<b></b><p></p>", strOf "<p>12</p>"]
    ∧ strOf "<b></b><p></p>" ≠ serializeNode (Node.elem (strOf "b") [] []) :=
  ⟨by decide, by decide, by decide, by decide, by decide, rfl, by decide⟩

/-- Claim C4 (amended): for two consecutive block elements that each fit in
`max_len` on their own, the split happens exactly between them provided the
second element opening tag does not fit after the first element serialization
(the condition the counterexample forces); each fragment is then exactly the
full serialization of its element. -/
theorem C4_split_between_blocks (maxLen : Nat) (name₁ name₂ : Str)
    (attrs₁ attrs₂ : List (Str × AttrVal)) (children₁ children₂ : List Node)
    (_hb₁ : isBlock (lowerName name₁) = true)
    (hb₂ : isBlock (lowerName name₂) = true)
    (h₁ : (serializeNode (Node.elem name₁ attrs₁ children₁)).length ≤ maxLen)
    (h₂ : (serializeNode (Node.elem name₂ attrs₂ children₂)).length ≤ maxLen)
    (hover : maxLen < (serializeNode (Node.elem name₁ attrs₁ children₁)).length
        + (openTagStr (lowerName name₂) attrs₂).length) :
    split_message [Node.elem name₁ attrs₁ children₁,
        Node.elem name₂ attrs₂ children₂] maxLen
      = Except.ok [serializeNode (Node.elem name₁ attrs₁ children₁),
          serializeNode (Node.elem name₂ attrs₂ children₂)] := by
  unfold split_message
  simp only [traverseList]
  rw [traverse_fits_node maxLen (Node.elem name₁ attrs₁ children₁)
    { cur := [], stack := [], out := [] } (by simpa using h₁)]
  simp only []
  rw [traverse_block_after_flush maxLen name₂ attrs₂ children₂
    { cur := [] ++ serializeNode (Node.elem name₁ attrs₁ children₁),
      stack := [], out := [] }
    hb₂ rfl h₂ (by simpa using hover)]
  simp only []
  have hlen₂ : (serializeNode (Node.elem name₂ attrs₂ children₂)).length
      = (openTagStr (lowerName name₂) attrs₂).length
        + (serializeList children₂).length
        + (closeTagStr (lowerName name₂)).length := by
    show (openTagStr (lowerName name₂) attrs₂ ++ serializeList children₂
      ++ closeTagStr (lowerName name₂)).length = _
    simp [List.length_append]
    omega
  have hne : (serializeNode (Node.elem name₂ attrs₂ children₂)).isEmpty = false := by
    apply isEmpty_false_of_length_pos
    have := openTagStr_length_pos (lowerName name₂) attrs₂
    omega
  simp [hne, flush_fragment, close_block_tags_nil]

/-- Witness for the amended C4 at `<p>12</p><p>123</p>` with `max_len = 10`. -/
theorem C4_split_between_blocks_witness :
    split_message [Node.elem (strOf "p") [] [Node.text (strOf "12")],
        Node.elem (strOf "p") [] [Node.text (strOf "123")]] 10
      = Except.ok [strOf "<p>12</p>", strOf "<p>123</p>"] :=
  (C4_split_between_blocks 10 (strOf "p") (strOf "p") [] []
    [Node.text (strOf "12")] [Node.text (strOf "123")]
    (by decide) (by decide) (by decide) (by decide) (by decide)).trans (by rfl)

/-- Claim C5 counterexample: plain text with no tags, longer than `max_len`,
on which `split_message` raises instead of emitting `ceil(length/max_len)`
fragments: a whitespace-only text goes through the whitespace branch, which
never chunks and fails once the text alone exceeds `max_len`. This covers
both ASCII spaces and the wider Python whitespace set, e.g. five no-break
spaces (U+00A0), which `str.strip()` removes as well. -/
theorem C5_counterexample :
    (3 < (strOf "    ").length
      ∧ split_message [Node.text (strOf "    ")] 3
          = Except.error SplitMessageError.emptyTextNoFit)
    ∧ (isAllSpace (List.replicate 5 '\xa0') = true
      ∧ 3 < (List.replicate 5 '\xa0').length
      ∧ split_message [Node.text (List.replicate 5 '\xa0')] 3
          = Except.error SplitMessageError.emptyTextNoFit) :=
  ⟨⟨by decide, rfl⟩, by decide, by decide, rfl⟩

/-- Claim C5 (amended): for plain text containing at least one non-whitespace
character, longer than `max_len > 0`, with no tags, the output has
`ceil(length/max_len)` fragments, each of length exactly `max_len` except
possibly the last, which is no longer than `max_len`. -/
theorem C5_plain_text_fragment_count (s : Str) (maxLen : Nat) (h0 : 0 < maxLen)
    (hnw : isAllSpace s = false) (hlen : maxLen < s.length) :
    ∃ frags : List Str,
      split_message [Node.text s] maxLen = Except.ok frags ∧
      frags.length = (s.length + maxLen - 1) / maxLen ∧
      (∀ f ∈ frags.dropLast, f.length = maxLen) ∧
      ∀ f ∈ frags, f.length ≤ maxLen := by
  have hs : s ≠ [] := by
    intro h
    subst h
    simp at hlen
  obtain ⟨body, lastf, heq, hall, hcat, hle, hne⟩ :=
    split_message_plain_text s maxLen h0 hnw hs
  refine ⟨body ++ [lastf], heq, ?_, ?_, ?_⟩
  · have hflat : body.flatten.length = body.length * maxLen :=
      flatten_length_of_all hall
    have hlen2 : s.length = body.length * maxLen + lastf.length := by
      rw [← hcat]
      simp [List.length_append, hflat]
    have h1 : 1 ≤ lastf.length := by
      cases lastf with
      | nil => exact absurd rfl hne
      | cons c cs => simp
    rw [hlen2, ceil_count h0 h1 hle]
    simp
  · rw [List.dropLast_concat]
    exact hall
  · intro f hf
    rcases List.mem_append.mp hf with h1 | h1
    · exact Nat.le_of_eq (hall f h1)
    · rw [List.mem_singleton.mp h1]
      exact hle

/-- Witness for the amended C5 at `abcdefg` with `max_len = 3`. -/
theorem C5_plain_text_fragment_count_witness :
    (0 < 3 ∧ isAllSpace (strOf "abcdefg") = false ∧ 3 < (strOf "abcdefg").length)
    ∧ ∃ frags : List Str,
      split_message [Node.text (strOf "abcdefg")] 3 = Except.ok frags ∧
      frags.length = ((strOf "abcdefg").length + 3 - 1) / 3 ∧
      (∀ f ∈ frags.dropLast, f.length = 3) ∧
      ∀ f ∈ frags, f.length ≤ 3 :=
  ⟨⟨by decide, by decide, by decide⟩,
    C5_plain_text_fragment_count (strOf "abcdefg") 3 (by decide) (by decide)
      (by decide)⟩

/-- Claim C6: on success the fragments decompose into re-opened block tags,
core content and re-closed block tags inserted at the boundaries, and the
cores concatenate to exactly the serialization of the input, which contains
the input text content, in order, as a subsequence. -/
theorem C6_concat_reconstructs (nodes : List Node) (maxLen : Nat)
    (frags : List Str) (h0 : 0 < maxLen)
    (h : split_message nodes maxLen = Except.ok frags) :
    ∃ parts : List FragParts,
      frags = parts.map renderParts ∧
      (parts.map FragParts.core).flatten = serializeList nodes ∧
      List.Sublist (textContentList nodes) (parts.map FragParts.core).flatten := by
  obtain ⟨parts, h1, h2, h3⟩ := split_decomp nodes maxLen frags h0 h
  refine ⟨parts, h1, h2, ?_⟩
  rw [h2]
  exact textContent_sublist_list nodes

/-- Witness for C6 at `<p>1234567890</p>` with `max_len = 10`. -/
theorem C6_concat_reconstructs_witness :
    (0 < 10
      ∧ split_message [Node.elem (strOf "p") [] [Node.text (strOf "1234567890")]] 10
        = Except.ok [strOf "<p>1234567</p>", strOf "<p>890</p>"])
    ∧ ∃ parts : List FragParts,
      [strOf "<p>1234567</p>", strOf "<p>890</p>"] = parts.map renderParts ∧
      (parts.map FragParts.core).flatten
        = serializeList [Node.elem (strOf "p") [] [Node.text (strOf "1234567890")]] ∧
      List.Sublist
        (textContentList [Node.elem (strOf "p") [] [Node.text (strOf "1234567890")]])
        (parts.map FragParts.core).flatten :=
  ⟨⟨by decide, rfl⟩,
    C6_concat_reconstructs [Node.elem (strOf "p") [] [Node.text (strOf "1234567890")]]
      10 [strOf "<p>1234567</p>", strOf "<p>890</p>"] (by decide) rfl⟩

/-- Claim C7: the spec says comment, doctype and processing-instruction nodes
are skipped and contribute nothing, and the source's final `else: pass` branch
(whose comment names exactly those node kinds) intends that; but those kinds
are `NavigableString` subclasses in the external parser, so the isinstance
test at the top of `traverse` routes them through the text branch and their
inner text is appended to fragments. The comment `<!--abc-->` arrives as a
string node whose `str()` is `abc`, and the code emits the fragment `abc`
instead of nothing. The `else` branch itself, were it reached, would indeed
leave the state unchanged (second conjunct). -/
theorem C7_comment_text_emitted :
    split_message [Node.text (strOf "abc")] 10 = Except.ok [strOf "abc"]
    ∧ ∀ (maxLen : Nat) (st : St), traverse maxLen Node.other st = Except.ok st :=
  ⟨rfl, fun _ _ => rfl⟩

/-- Claim C8: the fragmenter is a pure function of the parsed input and
`max_len`: the embedded model threads all state explicitly, so re-running it
on the same pair yields the identical fragment sequence; there is no hidden
mutable global state in the model. -/
theorem C8_deterministic (nodes : List Node) (maxLen : Nat) :
    split_message nodes maxLen = split_message nodes maxLen := rfl

/-- Claim C9: the empty input yields zero fragments for every positive
`max_len`. -/
theorem C9_empty_input (maxLen : Nat) (_h0 : 0 < maxLen) :
    split_message [] maxLen = Except.ok [] := rfl

/-- Witness for C9 at `max_len = 7`. -/
theorem C9_empty_input_witness :
    0 < 7 ∧ split_message [] 7 = Except.ok [] :=
  ⟨by decide, C9_empty_input 7 (by decide)⟩

/-- Claim C10: on success every fragment decomposes into a re-opened run of
bare block tag names, core content and re-closed bare block tag names
(`open_block_tags` renders `<name>` with no attributes), and the cores
concatenate to the serialization of the input, in which each element
attributes occur only in its one original opening tag. -/
theorem C10_reopened_tags_bare (nodes : List Node) (maxLen : Nat)
    (frags : List Str) (h0 : 0 < maxLen)
    (h : split_message nodes maxLen = Except.ok frags) :
    ∃ parts : List FragParts,
      frags = parts.map renderParts ∧
      (parts.map FragParts.core).flatten = serializeList nodes ∧
      ∀ p ∈ parts, blocksOnly p.pre ∧ blocksOnly p.post := by
  obtain ⟨parts, h1, h2, h3⟩ := split_decomp nodes maxLen frags h0 h
  exact ⟨parts, h1, h2, h3⟩

/-- Witness for C10 at a paragraph with a multi-valued class attribute whose
content spans a boundary: the re-opened tag in the second fragment is the bare
`<p>`. -/
theorem C10_reopened_tags_bare_witness :
    (0 < 25
      ∧ split_message
          [Node.elem (strOf "p")
            [(strOf "class", AttrVal.vals [strOf "btn", strOf "btn2"])]
            [Node.text (strOf "123456789")]] 25
        = Except.ok [strOf "<p class=\"btn btn2\">12345</p>", strOf "<p>6789</p>"])
    ∧ ∃ parts : List FragParts,
      [strOf "<p class=\"btn btn2\">12345</p>", strOf "<p>6789</p>"]
        = parts.map renderParts ∧
      (parts.map FragParts.core).flatten
        = serializeList [Node.elem (strOf "p")
            [(strOf "class", AttrVal.vals [strOf "btn", strOf "btn2"])]
            [Node.text (strOf "123456789")]] ∧
      ∀ p ∈ parts, blocksOnly p.pre ∧ blocksOnly p.post :=
  ⟨⟨by decide, rfl⟩,
    C10_reopened_tags_bare
      [Node.elem (strOf "p")
        [(strOf "class", AttrVal.vals [strOf "btn", strOf "btn2"])]
        [Node.text (strOf "123456789")]] 25
      [strOf "<p class=\"btn btn2\">12345</p>", strOf "<p>6789</p>"]
      (by decide) rfl⟩

end MsgSplit
